import Mathlib

/-!
Verification of the label/value extraction and classification engine of the
PDF report generator (`app.py`): canonicalization of label strings,
the blank-value predicate, the repeating product-group extractor, and the
synonym-based pool resolver.  Python runtime values are modelled by the
`PyVal` type; Python strings are modelled as Lean `String`s over the
character repertoire the repository actually uses (ASCII plus the accented
Portuguese letters appearing in the synonym table).
-/

namespace App

/-- Model of a Python value flowing through the pipeline: `None`, a float
NaN, a string, an integer, a fetched-image flowable (`reportlab` `Image`,
identified by an opaque tag), or a `Paragraph` flowable. -/
inductive PyVal where
  | vNone
  | vNan
  | vStr (s : String)
  | vInt (n : Int)
  | vImg (tag : Nat)
  | vPar (s : String)
deriving DecidableEq

/-- Python `str(v)`.  For flowable objects the exact `repr` text is opaque;
we model it as a bracketed tag that is never a label and never blank,
matching how `str` of a reportlab object behaves in the source. -/
def pyStr : PyVal → String
  | .vNone => "None"
  | .vNan => "nan"
  | .vStr s => s
  | .vInt n => toString n
  | .vImg t => "<Image " ++ toString t ++ ">"
  | .vPar s => "<Paragraph " ++ s ++ ">"

/-- Python's default whitespace set for `str.strip` and ASCII `\s`. -/
def pyIsSpace (c : Char) : Bool :=
  c = ' ' || c = '\t' || c = '\n' || c = '\r' || c = '\x0b' || c = '\x0c'

/-- Python `str.strip()` on a character list. -/
def pyStrip (l : List Char) : List Char :=
  ((l.dropWhile pyIsSpace).reverse.dropWhile pyIsSpace).reverse

/-- Python `str.strip()` on a string. -/
def pyStripStr (s : String) : String :=
  String.mk (pyStrip s.toList)

/-- ASCII lower-case table for `str.lower()` (the repository's data is
ASCII except for already-lowercase accented letters, which `lower` fixes). -/
def lowerTable : List (Char × Char) :=
  [('A','a'), ('B','b'), ('C','c'), ('D','d'), ('E','e'), ('F','f'),
   ('G','g'), ('H','h'), ('I','i'), ('J','j'), ('K','k'), ('L','l'),
   ('M','m'), ('N','n'), ('O','o'), ('P','p'), ('Q','q'), ('R','r'),
   ('S','s'), ('T','t'), ('U','u'), ('V','v'), ('W','w'), ('X','x'),
   ('Y','y'), ('Z','z')]

/-- Python `str.lower`, character-wise. -/
def pyToLower (c : Char) : Char :=
  ((lowerTable.find? (fun e => e.1 = c)).map (fun e => e.2)).getD c

/-- NFD decompositions (`unicodedata.normalize("NFD", ·)`) for the accented
characters used by the repository's synonym table; every other character
decomposes to itself. -/
def nfdTable : List (Char × List Char) :=
  [('á', ['a', '\u0301']), ('à', ['a', '\u0300']), ('â', ['a', '\u0302']),
   ('ã', ['a', '\u0303']), ('é', ['e', '\u0301']), ('ê', ['e', '\u0302']),
   ('í', ['i', '\u0301']), ('ó', ['o', '\u0301']), ('ô', ['o', '\u0302']),
   ('õ', ['o', '\u0303']), ('ú', ['u', '\u0301']), ('ü', ['u', '\u0308']),
   ('ç', ['c', '\u0327'])]

/-- NFD decomposition of one character. -/
def nfdChar (c : Char) : List Char :=
  ((nfdTable.find? (fun e => e.1 = c)).map (fun e => e.2)).getD [c]

/-- Combining marks (Unicode category `Mn`) reachable from `nfdTable`. -/
def mnChars : List Char :=
  ['\u0300', '\u0301', '\u0302', '\u0303', '\u0308', '\u0327']

/-- `unicodedata.category(c) == "Mn"` on the modelled repertoire. -/
def isMn (c : Char) : Bool := mnChars.contains c

/-- `strip_accents` from the source: NFD-normalize, drop combining marks. -/
def strip_accents (l : List Char) : List Char :=
  (l.flatMap nfdChar).filter (fun c => !isMn c)

/-- Python `s.replace("?", ":")` (single-character pattern). -/
def replQ (l : List Char) : List Char :=
  l.map (fun c => if c = '?' then ':' else c)

/-- Python `s.replace(" :", ":")`: one left-to-right pass replacing each
non-overlapping occurrence of space-colon by colon. -/
def replSC : List Char → List Char
  | [] => []
  | [c] => [c]
  | c :: d :: rest =>
    if c = ' ' ∧ d = ':' then ':' :: replSC rest
    else c :: replSC (d :: rest)

/-- `if s.endswith(":"): s = s[:-1]`. -/
def dropTrailingColon (l : List Char) : List Char :=
  if l.getLast? = some ':' then l.dropLast else l

mutual
/-- `re.sub(r"\s+", " ", s)`: each maximal whitespace run becomes one space. -/
def collapseWS : List Char → List Char
  | [] => []
  | c :: rest =>
    if pyIsSpace c then ' ' :: collapseSkip rest else c :: collapseWS rest

/-- Helper of `collapseWS`: currently inside a whitespace run. -/
def collapseSkip : List Char → List Char
  | [] => []
  | c :: rest =>
    if pyIsSpace c then collapseSkip rest else c :: collapseWS rest
end

/-- The canonicalization pipeline of `canonical_key` on a character list:
strip, lower, `"?"→":"`, `" :"→":"`, drop one trailing colon, strip
accents, collapse whitespace runs. -/
def canonKeyList (l : List Char) : List Char :=
  collapseWS (strip_accents (dropTrailingColon (replSC (replQ ((pyStrip l).map pyToLower)))))

/-- `canonical_key` restricted to string input. -/
def canonicalKeyStr (s : String) : String :=
  String.mk (canonKeyList s.toList)

/-- `canonical_key(label)` from the source: `None` yields the empty key,
any other value is stringified and canonicalized. -/
def canonical_key : PyVal → String
  | .vNone => ""
  | v => canonicalKeyStr (pyStr v)

/-- `_is_blank_value` from the source: `None`, NaN, or a string whose
stripped lower-case form is one of the sentinel blanks; an `Image`
flowable is never blank. -/
def _is_blank_value : PyVal → Bool
  | .vNone => true
  | .vNan => true
  | .vImg _ => false
  | v =>
    let s := String.mk ((pyStrip (pyStr v).toList).map pyToLower)
    s = "" || s = "-" || s = "n/a" || s = "na" || s = "null" || s = "none"

/-- A `(label, value)` pair as handled by the pipeline. -/
abbrev Pair := PyVal × PyVal

/-- Case-insensitively consume the pattern (already lower-case) from the
front of a character list, returning the remainder. -/
def stripPrefixCI : List Char → List Char → Option (List Char)
  | [], l => some l
  | _ :: _, [] => none
  | p :: ps, c :: cs => if pyToLower c = p then stripPrefixCI ps cs else none

/-- `int()` of a nonempty digit string. -/
def digitsToNat (l : List Char) : Nat :=
  l.foldl (fun acc c => acc * 10 + (c.toNat - 48)) 0

/-- `PRODUCT_REGEX.match(s)` with capture: the anchored case-insensitive
pattern `produto\s*(\d+)\s*:\s*` against the whole string, returning
`int(group(1))` on success. -/
def parseAnchor (s : String) : Option Nat :=
  match stripPrefixCI "produto".toList s.toList with
  | none => none
  | some r1 =>
    let r2 := r1.dropWhile pyIsSpace
    let digits := r2.takeWhile Char.isDigit
    let r3 := r2.dropWhile Char.isDigit
    if digits.isEmpty then none
    else
      match r3.dropWhile pyIsSpace with
      | ':' :: r4 =>
        if (r4.dropWhile pyIsSpace).isEmpty then some (digitsToNat digits) else none
      | _ => none

/-- `str(q).strip()` as applied to labels before matching. -/
def strippedLabel (q : PyVal) : String := pyStripStr (pyStr q)

/-- `"Produto {n}:".format(n=n)`: the first expected field label. -/
def anchorLabel (n : Nat) : String := "Produto " ++ toString n ++ ":"

/-- The `collected` field map of one product group, keyed by the four
expected labels (`Produto n:`, `Lote:`, `Dose (ml/100kg):`,
`Utilizado (ml total):`); a never-assigned slot holds Python `None`. -/
structure Collected where
  f0 : PyVal
  f1 : PyVal
  f2 : PyVal
  f3 : PyVal
deriving DecidableEq

/-- `any(not _is_blank_value(collected[lbl]) for lbl in expected_labels)`. -/
def hasAnyAnswer (c : Collected) : Bool :=
  !(_is_blank_value c.f0) || !(_is_blank_value c.f1) ||
    !(_is_blank_value c.f2) || !(_is_blank_value c.f3)

/-- Rendering of one collected value into the block item flowable:
images and paragraphs pass through, anything else becomes a paragraph of
its stripped string form, or a dash when blank. -/
def renderVal (v : PyVal) : PyVal :=
  match v with
  | .vImg t => .vImg t
  | .vPar s => .vPar s
  | v => .vPar (if _is_blank_value v then "-" else pyStripStr (pyStr v))

/-- One emitted product block: `{"n": n, "items": [...]}` with the four
label/flowable rows in schema order. -/
structure ProductGroup where
  n : Nat
  items : List Pair
deriving DecidableEq

/-- Builds the emitted block for index `n` from the collected map. -/
def mkGroup (n : Nat) (c : Collected) : ProductGroup :=
  { n := n
  , items := [(.vPar (anchorLabel n), renderVal c.f0),
              (.vPar "Lote:", renderVal c.f1),
              (.vPar "Dose (ml/100kg):", renderVal c.f2),
              (.vPar "Utilizado (ml total):", renderVal c.f3)] }

/-- Result of the inner collection loop of `extract_products_and_rest`:
the filled field map, the newly used positions, the index `j` where the
scan stopped, and the unscanned remainder of the pair list. -/
structure WinRes where
  coll : Collected
  used : List Nat
  jEnd : Nat
  rem : List Pair
deriving DecidableEq

/-- The inner `while j < total` loop: collect pairs whose stripped label is
one of the expected sub-field labels (later hits overwrite the map entry),
marking their positions used, and stop at the next anchor or at the end. -/
def collectWindow : Nat → List Pair → Collected → List Nat → WinRes
  | j, [], c, used => { coll := c, used := used, jEnd := j, rem := [] }
  | j, (q, a) :: tl, c, used =>
    let s := strippedLabel q
    if (parseAnchor s).isSome then
      { coll := c, used := used, jEnd := j, rem := (q, a) :: tl }
    else if s = "Lote:" then
      collectWindow (j + 1) tl { c with f1 := a } (used ++ [j])
    else if s = "Dose (ml/100kg):" then
      collectWindow (j + 1) tl { c with f2 := a } (used ++ [j])
    else if s = "Utilizado (ml total):" then
      collectWindow (j + 1) tl { c with f3 := a } (used ++ [j])
    else collectWindow (j + 1) tl c used

/-- The outer `while i < total` loop of `extract_products_and_rest`:
walks the pair list (absolute position `i`, unscanned suffix), starting a
product window at each anchor while fewer than `maxp` groups have been
emitted; an all-blank group is dropped but its positions stay used.  The
loop advances at least one pair per iteration, so it is presented as
structural recursion on a fuel bounded below by the suffix length
(`scanLoop` instantiates the fuel). -/
def scanGo (maxp : Nat) : Nat → Nat → List Pair → List ProductGroup → List Nat →
    List ProductGroup × List Nat
  | _, _, [], prods, used => (prods, used)
  | 0, _, _ :: _, prods, used => (prods, used)
  | fuel + 1, i, (q, a) :: tl, prods, used =>
    match parseAnchor (strippedLabel q) with
    | some n =>
      if prods.length < maxp then
        let w := collectWindow (i + 1) tl
          { f0 := a, f1 := .vNone, f2 := .vNone, f3 := .vNone } []
        let prods1 := if hasAnyAnswer w.coll then prods ++ [mkGroup n w.coll] else prods
        scanGo maxp fuel w.jEnd w.rem prods1 (used ++ i :: w.used)
      else scanGo maxp fuel (i + 1) tl prods used
    | none => scanGo maxp fuel (i + 1) tl prods used

/-- The outer scan at full fuel. -/
def scanLoop (maxp : Nat) (i : Nat) (susp : List Pair)
    (prods : List ProductGroup) (used : List Nat) : List ProductGroup × List Nat :=
  scanGo maxp susp.length i susp prods used

/-- Insertion step of the stable ascending sort by the key
`lambda d: d["n"]`: the inserted (earlier-scanned) group goes before any
group with an equal or larger key. -/
def insertByN (g : ProductGroup) : List ProductGroup → List ProductGroup
  | [] => [g]
  | h :: t => if h.n < g.n then h :: insertByN g t else g :: h :: t

/-- `products.sort(key=lambda d: d["n"])`: Python's stable ascending sort,
modelled as stable insertion sort. -/
def sortByN : List ProductGroup → List ProductGroup
  | [] => []
  | g :: t => insertByN g (sortByN t)

/-- `extract_products_and_rest(pairs, max_products)`: emitted groups
(sorted ascending by `n`, stable) and the residual pairs (original order,
used positions removed). -/
def extract_products_and_rest (pairs : List Pair) (max_products : Nat) :
    List ProductGroup × List Pair :=
  let r := scanLoop max_products 0 pairs [] []
  let rest := (pairs.enum.filter (fun e => !(r.2.contains e.1))).map (fun e => e.2)
  (sortByN r.1, rest)

/-- The `SYNONYMS` table from the source, in configured order. -/
def SYNONYMS : List (String × List String) :=
  [("data", ["data", "data aplicação", "data do ts", "data da aplicação"]),
   ("maquina ts", ["maquina ts", "máquina ts", "maquina de ts"]),
   ("supervisor otm", ["supervisor otm", "supervisor", "otm supervisor"]),
   ("canal", ["canal"]),
   ("cidade", ["cidade", "municipio", "município"]),
   ("uf", ["uf", "estado", "sigla uf"]),
   ("consultor responsavel",
    ["consultor responsavel", "consultor responsável",
     "responsavel tecnico", "responsável técnico"]),
   ("empresa contratante", ["empresa contratante", "contratante"]),
   ("produtor", ["produtor", "nome do produtor"]),
   ("telefone do produtor", ["telefone do produtor", "telefone produtor", "telefone"]),
   ("cultura", ["cultura"]),
   ("variedade", ["variedade", "cultivar"]),
   ("lote", ["lote", "lote geral"]),
   ("empresa", ["empresa", "empresa ts", "empresa executora"]),
   ("tipo", ["tipo"]),
   ("peso total", ["peso total", "peso", "peso total (kg)"])]

/-- The `GROUPS` configuration from the source. -/
def GROUPS : List (List String) :=
  [["Data", "Máquina TS", "Supervisor OTM"],
   ["Canal", "Cidade", "UF", "Consultor Responsável"],
   ["Empresa Contratante", "Produtor", "Telefone do Produtor", "Cidade", "UF"],
   ["Cultura", "Variedade", "Lote", "Empresa", "Tipo", "Peso Total"]]

/-- `canon_from_display` from the source. -/
def canon_from_display (label : String) : String := canonicalKeyStr label

/-- The canonical synonym variants tried for a wanted display label:
`SYNONYMS.get(target, [target])`, each canonicalized, in table order. -/
def synsOf (wanted_display_label : String) : List String :=
  let target := canon_from_display wanted_display_label
  ((List.lookup target SYNONYMS).getD [target]).map canonicalKeyStr

/-- `key_matches(label_in_sheet, wanted_display_label)` from the source. -/
def key_matches (label_in_sheet : String) (wanted_display_label : String) : Bool :=
  (synsOf wanted_display_label).contains (canonicalKeyStr label_in_sheet)

/-- The `index` dict of `build_lookup`: insertion-ordered `{i: (q, a)}`. -/
abbrev Index := List (Nat × Pair)

/-- The `pockets` dict of `build_lookup`: canonical key to the FIFO list of
positions holding that key. -/
abbrev Pockets := List (String × List Nat)

/-- `pockets.setdefault(k, []).append(i)`: append to the pocket of `k`,
creating it at the end of the dict when absent. -/
def pocketInsert (pk : Pockets) (k : String) (i : Nat) : Pockets :=
  if pk.any (fun e => e.1 = k) then
    pk.map (fun e => if e.1 = k then (e.1, e.2 ++ [i]) else e)
  else pk ++ [(k, [i])]

/-- `canonical_key(str(q))` of an indexed pair, the pocket key used by
`build_lookup`. -/
def keyOf (e : Nat × Pair) : String := canonicalKeyStr (pyStr e.2.1)

/-- The positions of an indexed pair list holding a given canonical key,
in order: the contents of that key's pocket. -/
def idxsOf (L : List (Nat × Pair)) (k : String) : List Nat :=
  (L.filter (fun e => keyOf e = k)).map (fun e => e.1)

/-- `build_lookup(pairs)` from the source. -/
def build_lookup (pairs : List Pair) : Index × Pockets :=
  (pairs.enum, pairs.enum.foldl (fun pk e => pocketInsert pk (keyOf e) e.1) [])

/-- `index.pop(idx, (None, None))`: remove and return the entry, or the
default when absent. -/
def popIndex (index : Index) (idx : Nat) : Pair × Index :=
  match List.lookup idx index with
  | some p => (p, index.filter (fun e => e.1 != idx))
  | none => ((.vNone, .vNone), index)

/-- The synonym loop of `pop_first_matching`: try each variant in order;
on the first nonempty pocket, pop its first position from the pocket (and
drop the pocket when emptied) and pop that position from the index.  A
found pair is returned as `some`; the `(None, None)` NOT_FOUND sentinel of
the source is modelled as `none`. -/
def popGo (index : Index) (pockets : Pockets) : List String → Option Pair × Index × Pockets
  | [] => (none, index, pockets)
  | s :: ss =>
    match List.lookup s pockets with
    | some (idx :: l) =>
      let pockets1 :=
        if l = [] then pockets.filter (fun e => e.1 != s)
        else pockets.map (fun e => if e.1 = s then (e.1, l) else e)
      let r := popIndex index idx
      (some r.1, r.2, pockets1)
    | _ => popGo index pockets ss

/-- `pop_first_matching(index, pockets, wanted_display_label)`. -/
def pop_first_matching (index : Index) (pockets : Pockets)
    (wanted_display_label : String) : Option Pair × Index × Pockets :=
  popGo index pockets (synsOf wanted_display_label)

/-- The named-group resolution of the app loop (`make_inline_group_block`
over every label of every configured group, flattened): resolves each
wanted label in order against the pool, returning the final pool and the
number of labels that consumed a pair. -/
def resolveGroups (index : Index) (pockets : Pockets) : List String → Index × Pockets × Nat
  | [] => (index, pockets, 0)
  | w :: ws =>
    let r := pop_first_matching index pockets w
    let rr := resolveGroups r.2.1 r.2.2 ws
    (rr.1, rr.2.1, (if r.1.isSome then 1 else 0) + rr.2.2)

/-- The well-formedness invariant of the `(index, pockets)` pool: index
keys are distinct and every pocket lists distinct positions that are
present in the index with the pocket's canonical key. -/
def PoolInv (index : Index) (pockets : Pockets) : Prop :=
  (index.map (fun e => e.1)).Nodup ∧
  ∀ k l, List.lookup k pockets = some l →
    l.Nodup ∧ ∀ i ∈ l, ∃ p : Pair,
      List.lookup i index = some p ∧ canonicalKeyStr (pyStr p.1) = k

/-- There is no space-colon bigram anywhere in the list. -/
def noSpaceColonPair : List Char → Bool
  | [] => true
  | [_] => true
  | c :: d :: rest => if c = ' ' ∧ d = ':' then false else noSpaceColonPair (d :: rest)

/-- The ends of the list carry no whitespace. -/
def noEdgeWS (l : List Char) : Bool :=
  ((l.head?.map (fun c => !pyIsSpace c)).getD true) &&
    ((l.getLast?.map (fun c => !pyIsSpace c)).getD true)

/-- The list does not end with a colon. -/
def noTrailingColon (l : List Char) : Bool :=
  decide (¬ l.getLast? = some ':')

/-! ## Theorems -/

theorem collectWindow_rem_length :
    ∀ (j : Nat) (l : List Pair) (c : Collected) (u : List Nat),
      (collectWindow j l c u).rem.length ≤ l.length := by
  intro j l
  induction l generalizing j with
  | nil => intro c u; simp [collectWindow]
  | cons p tl ih =>
    intro c u
    obtain ⟨q, a⟩ := p
    simp only [collectWindow]
    split
    · simp
    · split
      · exact Nat.le_trans (ih _ _ _) (Nat.le_succ _)
      · split
        · exact Nat.le_trans (ih _ _ _) (Nat.le_succ _)
        · split
          · exact Nat.le_trans (ih _ _ _) (Nat.le_succ _)
          · exact Nat.le_trans (ih _ _ _) (Nat.le_succ _)


/-- C9: the blank predicate classifies the boundary values exactly as
specified: `"-"`, `"N/A"`, whitespace-only, `None` and float NaN are
blank; `"0"` and `"-1"` are not; a resolved image placeholder is never
blank. -/
theorem blank_predicate_boundary :
    _is_blank_value (.vStr "-") = true ∧
    _is_blank_value (.vStr "N/A") = true ∧
    _is_blank_value (.vStr "  ") = true ∧
    _is_blank_value .vNone = true ∧
    _is_blank_value .vNan = true ∧
    _is_blank_value (.vStr "0") = false ∧
    _is_blank_value (.vStr "-1") = false ∧
    ∀ t : Nat, _is_blank_value (.vImg t) = false :=
  ⟨by decide, by decide, by decide, rfl, rfl, by decide, by decide, fun _ => rfl⟩

/-- C5 counterexample: a non-string input is NOT mapped to the empty key;
the integer 5 is stringified and canonicalized to `"5"`. -/
theorem canonical_key_nonstring_not_empty :
    canonical_key (.vInt 5) ≠ "" := by decide

/-- C5 amended: a null input yields the empty key, but any other
non-string input is stringified and canonicalized like a string (e.g.
the integer 5 yields `"5"` and float NaN yields `"nan"`). -/
theorem canonical_key_null_vs_nonstring :
    canonical_key .vNone = "" ∧
    canonical_key (.vInt 5) = "5" ∧
    canonical_key .vNan = "nan" :=
  ⟨rfl, by decide, by decide⟩

/-- C4 counterexample: canonicalization is not idempotent.  For the label
`"??"` the first pass turns both question marks into colons and strips
only one of them, giving the key `":"`; a second pass strips the leftover
colon, giving `""`. -/
theorem canonical_key_not_idempotent :
    canonical_key (.vStr (canonical_key (.vStr "??"))) ≠ canonical_key (.vStr "??") := by
  decide

/-- C7 counterexample: two anchors for the same product index do NOT merge
into a single map with last-collected values winning; each anchor starts
its own group, so index 1 is emitted twice here (the claim predicts a
single group for N = 1). -/
theorem duplicate_anchor_two_groups :
    ((extract_products_and_rest
        [(.vStr "Produto 1:", .vStr "A"), (.vStr "Lote:", .vStr "L1"),
         (.vStr "Produto 1:", .vStr "B"), (.vStr "Lote:", .vStr "L2")] 11).1.map
      (fun g => g.n)) = [1, 1] ∧
    ¬ ((extract_products_and_rest
        [(.vStr "Produto 1:", .vStr "A"), (.vStr "Lote:", .vStr "L1"),
         (.vStr "Produto 1:", .vStr "B"), (.vStr "Lote:", .vStr "L2")] 11).1.length = 1) := by
  constructor
  · decide
  · decide

/-- C6 counterexample: the group bound counts RETAINED groups, not
distinct anchors.  With bound 1, the first anchor (`Produto 1:`, all
fields blank) is consumed and discarded without counting toward the
bound, the second anchor is still processed into a group — so the group
emitted is for index 2, and the pair `("Produto 2:", "x")` does not stay
in the residual pool, contradicting the claim that only the first
max-groups distinct anchors are processed and all further anchors are
left in the residual. -/
theorem max_products_bound_counterexample :
    ((extract_products_and_rest
        [(.vStr "Produto 1:", .vStr "-"), (.vStr "Produto 2:", .vStr "x"),
         (.vStr "Produto 3:", .vStr "y"), (.vStr "Lote:", .vStr "L")] 1).1.map
      (fun g => g.n)) = [2] ∧
    ¬ ((PyVal.vStr "Produto 2:", PyVal.vStr "x") ∈
        (extract_products_and_rest
          [(.vStr "Produto 1:", .vStr "-"), (.vStr "Produto 2:", .vStr "x"),
           (.vStr "Produto 3:", .vStr "y"), (.vStr "Lote:", .vStr "L")] 1).2) := by
  constructor
  · decide
  · decide

theorem mem_insertByN {b g : ProductGroup} :
    ∀ {l : List ProductGroup}, b ∈ insertByN g l ↔ b = g ∨ b ∈ l := by
  intro l
  induction l with
  | nil => simp [insertByN]
  | cons h t ih =>
    by_cases hlt : h.n < g.n
    · simp only [insertByN, if_pos hlt, List.mem_cons, ih]
      tauto
    · simp only [insertByN, if_neg hlt, List.mem_cons]

theorem insertByN_pairwise {g : ProductGroup} {l : List ProductGroup}
    (h : l.Pairwise (fun a b => a.n ≤ b.n)) :
    (insertByN g l).Pairwise (fun a b => a.n ≤ b.n) := by
  induction l with
  | nil => simp [insertByN]
  | cons a t ih =>
    rcases List.pairwise_cons.1 h with ⟨ha, ht⟩
    by_cases hlt : a.n < g.n
    · simp only [insertByN, if_pos hlt]
      refine List.pairwise_cons.2 ⟨?_, ih ht⟩
      intro b hb
      rcases mem_insertByN.1 hb with hb | hb
      · exact hb ▸ Nat.le_of_lt hlt
      · exact ha b hb
    · simp only [insertByN, if_neg hlt]
      refine List.pairwise_cons.2 ⟨?_, h⟩
      intro b hb
      rcases List.mem_cons.1 hb with hb | hb
      · exact hb ▸ Nat.le_of_not_lt hlt
      · exact Nat.le_trans (Nat.le_of_not_lt hlt) (ha b hb)

theorem sortByN_pairwise :
    ∀ l : List ProductGroup, (sortByN l).Pairwise (fun a b => a.n ≤ b.n)
  | [] => by simp [sortByN]
  | g :: t => insertByN_pairwise (sortByN_pairwise t)

theorem insertByN_length (g : ProductGroup) :
    ∀ l : List ProductGroup, (insertByN g l).length = l.length + 1 := by
  intro l
  induction l with
  | nil => rfl
  | cons h t ih =>
    by_cases hlt : h.n < g.n
    · simp [insertByN, if_pos hlt, ih]
    · simp [insertByN, if_neg hlt]

theorem sortByN_length : ∀ l : List ProductGroup, (sortByN l).length = l.length
  | [] => rfl
  | g :: t => by simp [sortByN, insertByN_length, sortByN_length t]

/-- C8: product groups are emitted in ascending numeric order regardless of
their order of appearance: the emitted list is always sorted by `n`, and
the concrete input order [Produto 3, Produto 1] yields output order
[1, 3]. -/
theorem products_sorted_ascending :
    (∀ (pairs : List Pair) (maxp : Nat),
        ((extract_products_and_rest pairs maxp).1.map (fun g => g.n)).Pairwise (· ≤ ·)) ∧
    ((extract_products_and_rest
        [(.vStr "Produto 3:", .vStr "c"), (.vStr "Produto 1:", .vStr "a")] 11).1.map
      (fun g => g.n)) = [1, 3] := by
  constructor
  · intro pairs maxp
    have h := sortByN_pairwise (scanLoop maxp 0 pairs [] []).1
    simpa [extract_products_and_rest, List.pairwise_map] using h
  · decide

theorem scanGo_length_le (maxp : Nat) :
    ∀ (fuel i : Nat) (susp : List Pair) (prods : List ProductGroup) (used : List Nat),
      prods.length ≤ maxp → ((scanGo maxp fuel i susp prods used).1).length ≤ maxp := by
  intro fuel
  induction fuel with
  | zero =>
    intro i susp prods used h
    cases susp <;> simpa [scanGo]
  | succ f ih =>
    intro i susp prods used h
    cases susp with
    | nil => simpa [scanGo]
    | cons p tl =>
      obtain ⟨q, a⟩ := p
      simp only [scanGo]
      split
      · split
        · rename_i hlt
          apply ih
          split
          · simpa using hlt
          · exact h
        · exact ih _ _ _ _ h
      · exact ih _ _ _ _ h

/-- C6 amended: the group bound caps the number of RETAINED groups — an
anchor is processed whenever fewer than `max_products` groups have been
retained so far (an all-blank, discarded group does not count toward the
bound), and once the bound is reached further anchors are left in the
residual pool untouched.  Part one: at most `max_products` groups are ever
emitted.  Part two: with bound 1, a discarded blank first group still lets
the second anchor form a group, and the third anchor and its sub-field
stay in the residual, unmerged and undiscarded. -/
theorem max_products_caps_retained_groups :
    (∀ (pairs : List Pair) (maxp : Nat),
        ((extract_products_and_rest pairs maxp).1).length ≤ maxp) ∧
    ((extract_products_and_rest
        [(.vStr "Produto 1:", .vStr "-"), (.vStr "Produto 2:", .vStr "x"),
         (.vStr "Produto 3:", .vStr "y"), (.vStr "Lote:", .vStr "L")] 1).1.map
      (fun g => g.n) = [2] ∧
     (extract_products_and_rest
        [(.vStr "Produto 1:", .vStr "-"), (.vStr "Produto 2:", .vStr "x"),
         (.vStr "Produto 3:", .vStr "y"), (.vStr "Lote:", .vStr "L")] 1).2 =
       [(.vStr "Produto 3:", .vStr "y"), (.vStr "Lote:", .vStr "L")]) := by
  refine ⟨?_, by decide, by decide⟩
  intro pairs maxp
  have h := scanGo_length_le maxp pairs.length 0 pairs [] [] (Nat.zero_le _)
  simpa [extract_products_and_rest, scanLoop, sortByN_length] using h

/-- C7 amended: duplicate anchors for the same index N each start their own
group — the extractor emits one group per anchor occurrence, with no
merging, so two anchors for N = 1 yield two groups (second conjunct).
Within a single group's collection window the field map IS keyed by the
sub-field label, so a repeated sub-field label overwrites the earlier
entry and the last-scanned value in that window wins (first conjunct,
shown for the `Lote:` field: whatever precedes it in the window, a final
`Lote:` pair determines the collected value). -/
theorem duplicate_anchor_last_wins :
    (∀ (xs : List Pair) (v : PyVal) (j : Nat) (c : Collected) (u : List Nat),
        (∀ p ∈ xs, parseAnchor (strippedLabel p.1) = none) →
        (collectWindow j (xs ++ [(.vStr "Lote:", v)]) c u).coll.f1 = v) ∧
    (extract_products_and_rest
        [(.vStr "Produto 1:", .vStr "A"), (.vStr "Lote:", .vStr "L1"),
         (.vStr "Produto 1:", .vStr "B"), (.vStr "Lote:", .vStr "L2")] 11).1 =
      [mkGroup 1 { f0 := .vStr "A", f1 := .vStr "L1", f2 := .vNone, f3 := .vNone },
       mkGroup 1 { f0 := .vStr "B", f1 := .vStr "L2", f2 := .vNone, f3 := .vNone }] := by
  constructor
  · intro xs
    induction xs with
    | nil =>
      intro v j c u _
      have h1 : strippedLabel (.vStr "Lote:") = "Lote:" := by decide
      have p1 : parseAnchor "Lote:" = none := by decide
      simp [collectWindow, h1, p1]
    | cons p xs ih =>
      intro v j c u h
      obtain ⟨q, a⟩ := p
      have hq : parseAnchor (strippedLabel q) = none := h _ (List.mem_cons_self _ _)
      have h' : ∀ p ∈ xs, parseAnchor (strippedLabel p.1) = none :=
        fun p hp => h p (List.mem_cons_of_mem _ hp)
      simp only [List.cons_append, collectWindow, hq, Option.isSome_none, Bool.false_eq_true,
        if_false]
      split
      · exact ih v (j + 1) _ _ h'
      · split
        · exact ih v (j + 1) _ _ h'
        · split
          · exact ih v (j + 1) _ _ h'
          · exact ih v (j + 1) _ _ h'
  · decide

/-- Witness for `duplicate_anchor_last_wins`: with one earlier `Lote:`
pair in the window, the later `Lote:` value wins. -/
theorem duplicate_anchor_last_wins_witness :
    parseAnchor (strippedLabel (.vStr "Lote:")) = none ∧
    (collectWindow 0
        ([(.vStr "Lote:", .vStr "L1")] ++ [(.vStr "Lote:", .vStr "L2")])
        { f0 := .vNone, f1 := .vNone, f2 := .vNone, f3 := .vNone } []).coll.f1 =
      .vStr "L2" :=
  ⟨by decide,
   duplicate_anchor_last_wins.1 [(.vStr "Lote:", .vStr "L1")] (.vStr "L2") 0
     { f0 := .vNone, f1 := .vNone, f2 := .vNone, f3 := .vNone } [] (by decide)⟩

theorem scanGo_append_no_anchor (maxp : Nat) :
    ∀ (ctx : List Pair) (fuel i : Nat) (tail : List Pair)
      (prods : List ProductGroup) (used : List Nat),
      (∀ p ∈ ctx, parseAnchor (strippedLabel p.1) = none) →
      scanGo maxp (ctx.length + fuel) i (ctx ++ tail) prods used =
        scanGo maxp fuel (i + ctx.length) tail prods used := by
  intro ctx
  induction ctx with
  | nil => intro fuel i tail prods used _; simp
  | cons p t ih =>
    intro fuel i tail prods used h
    obtain ⟨q, a⟩ := p
    have hq : parseAnchor (strippedLabel q) = none := h _ (List.mem_cons_self _ _)
    have h' : ∀ p ∈ t, parseAnchor (strippedLabel p.1) = none :=
      fun p hp => h p (List.mem_cons_of_mem _ hp)
    rw [show (q, a) :: t ++ tail = (q, a) :: (t ++ tail) from rfl,
      show ((q, a) :: t).length + fuel = (t.length + fuel) + 1 by simp; omega]
    simp only [scanGo, hq]
    rw [ih fuel (i + 1) tail prods used h']
    congr 1
    simp
    omega

theorem enumFrom_append (l1 l2 : List Pair) :
    ∀ j : Nat, List.enumFrom j (l1 ++ l2) =
      List.enumFrom j l1 ++ List.enumFrom (j + l1.length) l2 := by
  induction l1 with
  | nil => intro j; simp
  | cons p t ih =>
    intro j
    simp only [List.cons_append, List.enumFrom_cons, ih (j + 1), List.length_cons]
    rw [show j + 1 + t.length = j + (t.length + 1) by omega]

theorem mem_enumFrom_bounds {e : Nat × Pair} :
    ∀ (l : List Pair) (j : Nat), e ∈ List.enumFrom j l →
      j ≤ e.1 ∧ e.1 < j + l.length ∧ e.2 ∈ l := by
  intro l
  induction l with
  | nil => intro j h; simp at h
  | cons p t ih =>
    intro j h
    rcases List.mem_cons.1 h with h | h
    · subst h; simp
    · have := ih (j + 1) h
      refine ⟨by omega, by simp; omega, List.mem_cons_of_mem _ this.2.2⟩

/-- Shape of the residual filter when the used positions are exactly the
positions of the appended tail. -/
theorem rest_eq_ctx (ctx tail : List Pair) (used : List Nat)
    (hu : ∀ k ∈ used, ctx.length ≤ k)
    (hall : ∀ k, ctx.length ≤ k → k < ctx.length + tail.length → k ∈ used) :
    (((ctx ++ tail).enum.filter (fun e => !(used.contains e.1))).map (fun e => e.2)) = ctx := by
  have hsplit : (ctx ++ tail).enum = List.enumFrom 0 ctx ++ List.enumFrom ctx.length tail := by
    have := enumFrom_append ctx tail 0
    simpa [List.enum] using this
  rw [hsplit, List.filter_append, List.map_append]
  have hctx : (List.enumFrom 0 ctx).filter (fun e => !(used.contains e.1)) =
      List.enumFrom 0 ctx := by
    rw [List.filter_eq_self]
    intro e he
    have hb := mem_enumFrom_bounds ctx 0 he
    have : ¬ e.1 ∈ used := fun hmem => absurd (hu _ hmem) (by omega)
    simpa [List.contains, List.elem_eq_mem] using this
  have htail : (List.enumFrom ctx.length tail).filter (fun e => !(used.contains e.1)) = [] := by
    rw [List.filter_eq_nil_iff]
    intro e he
    have hb := mem_enumFrom_bounds tail ctx.length he
    have : e.1 ∈ used := hall _ hb.1 (by omega)
    simp [List.contains, List.elem_eq_mem, this]
  rw [hctx, htail]
  simp [List.enumFrom_map_snd]

theorem collectWindow_sub3 (j : Nat) (c : Collected) (l d u : PyVal) :
    collectWindow j [(.vStr "Lote:", l), (.vStr "Dose (ml/100kg):", d),
                     (.vStr "Utilizado (ml total):", u)] c [] =
      { coll := { c with f1 := l, f2 := d, f3 := u },
        used := [j, j + 1, j + 2], jEnd := j + 3, rem := [] } := by
  have h1 : strippedLabel (.vStr "Lote:") = "Lote:" := by decide
  have h2 : strippedLabel (.vStr "Dose (ml/100kg):") = "Dose (ml/100kg):" := by decide
  have h3 : strippedLabel (.vStr "Utilizado (ml total):") = "Utilizado (ml total):" := by decide
  have p1 : parseAnchor "Lote:" = none := by decide
  have p2 : parseAnchor "Dose (ml/100kg):" = none := by decide
  have p3 : parseAnchor "Utilizado (ml total):" = none := by decide
  simp only [collectWindow, h1, h2, h3, p1, p2, p3]
  norm_num
  rw [if_neg (by decide : ¬ ("Dose (ml/100kg):" : String) = "Lote:"),
    if_neg (by decide : ¬ ("Utilizado (ml total):" : String) = "Lote:"),
    if_neg (by decide : ¬ ("Utilizado (ml total):" : String) = "Dose (ml/100kg):")]

/-- C2: a product group whose four collected fields are all blank is
discarded entirely — it is not emitted and its consumed positions (anchor
and matched sub-fields) do not reappear in the residual pairs; a group
with at least one non-blank field is retained.  Stated for an anchor pair
followed by its three sub-field pairs after any anchor-free prefix
context: the residual is exactly that context in both cases. -/
theorem blank_group_policy (ctx : List Pair) (q a l d u : PyVal) (n : Nat)
    (hq : parseAnchor (strippedLabel q) = some n)
    (hctx : ∀ p ∈ ctx, parseAnchor (strippedLabel p.1) = none) :
    extract_products_and_rest
        (ctx ++ [(q, a), (.vStr "Lote:", l), (.vStr "Dose (ml/100kg):", d),
                 (.vStr "Utilizado (ml total):", u)]) 11 =
      (if _is_blank_value a && _is_blank_value l && _is_blank_value d && _is_blank_value u
       then ([], ctx)
       else ([mkGroup n { f0 := a, f1 := l, f2 := d, f3 := u }], ctx)) := by
  have hscan :
      scanLoop 11 0
        (ctx ++ [(q, a), (.vStr "Lote:", l), (.vStr "Dose (ml/100kg):", d),
                 (.vStr "Utilizado (ml total):", u)]) [] [] =
      ((if hasAnyAnswer { f0 := a, f1 := l, f2 := d, f3 := u } then
          [mkGroup n { f0 := a, f1 := l, f2 := d, f3 := u }] else []),
       [ctx.length, ctx.length + 1, ctx.length + 2, ctx.length + 3]) := by
    rw [scanLoop, List.length_append,
      scanGo_append_no_anchor 11 ctx _ 0 _ [] [] hctx]
    simp only [List.length_cons, List.length_nil, Nat.zero_add]
    simp only [scanGo, hq]
    rw [if_pos (by norm_num : ([] : List ProductGroup).length < 11)]
    rw [collectWindow_sub3]
    simp [scanGo]
  have hrest :
      (((ctx ++ [(q, a), (.vStr "Lote:", l), (.vStr "Dose (ml/100kg):", d),
            (.vStr "Utilizado (ml total):", u)]).enum.filter
          (fun e => !(List.contains
            [ctx.length, ctx.length + 1, ctx.length + 2, ctx.length + 3] e.1))).map
        (fun e => e.2)) = ctx := by
    apply rest_eq_ctx
    · intro k hk
      fin_cases hk <;> omega
    · intro k h1 h2
      simp only [List.length_cons, List.length_nil] at h2
      simp only [List.mem_cons, List.not_mem_nil, or_false]
      omega
  rcases hb : hasAnyAnswer { f0 := a, f1 := l, f2 := d, f3 := u } with _ | _
  · have hcond : (_is_blank_value a && _is_blank_value l && _is_blank_value d &&
        _is_blank_value u) = true := by
      simp only [hasAnyAnswer, Bool.or_eq_false_iff, Bool.not_eq_false'] at hb
      simp [hb.1.1.1, hb.1.1.2, hb.1.2, hb.2]
    simp only [extract_products_and_rest, hscan, hb, hcond, Bool.false_eq_true, if_false,
      if_true, sortByN]
    exact Prod.ext rfl hrest
  · have hcond : (_is_blank_value a && _is_blank_value l && _is_blank_value d &&
        _is_blank_value u) = false := by
      simp only [hasAnyAnswer, Bool.or_eq_true, Bool.not_eq_true'] at hb
      rcases hb with ((h | h) | h) | h <;> simp [h]
    simp only [extract_products_and_rest, hscan, hb, hcond, Bool.false_eq_true, if_false,
      if_true, sortByN, insertByN]
    exact Prod.ext rfl hrest

/-- Witness for `blank_group_policy`: the spec's retention example — field
1 is `"X"`, the other three are `"-"`, `""` and `None` — produces one
retained group and an empty residual. -/
theorem blank_group_policy_witness :
    parseAnchor (strippedLabel (.vStr "Produto 1:")) = some 1 ∧
    extract_products_and_rest
        [(.vStr "Produto 1:", .vStr "X"), (.vStr "Lote:", .vStr "-"),
         (.vStr "Dose (ml/100kg):", .vStr ""), (.vStr "Utilizado (ml total):", .vNone)] 11 =
      ([mkGroup 1 { f0 := .vStr "X", f1 := .vStr "-", f2 := .vStr "", f3 := .vNone }], []) := by
  refine ⟨by decide, ?_⟩
  have h := blank_group_policy [] (.vStr "Produto 1:") (.vStr "X") (.vStr "-") (.vStr "")
    .vNone 1 (by decide) (by simp)
  simpa using h

section AssocToolkit

variable {α β : Type} [DecidableEq α] [BEq α] [LawfulBEq α]

theorem lookup_filter_ne_self (k : α) :
    ∀ l : List (α × β), List.lookup k (l.filter (fun e => e.1 != k)) = none := by
  intro l
  induction l with
  | nil => rfl
  | cons e t ih =>
    obtain ⟨e1, e2⟩ := e
    by_cases h : e1 = k
    · have hb : ((e1, e2).1 != k) = false := by simp [h]
      simp only [List.filter_cons, hb, Bool.false_eq_true, if_false]
      exact ih
    · have hb : ((e1, e2).1 != k) = true := by simp [h]
      have hk : (k == e1) = false := beq_eq_false_iff_ne.2 (fun hkk => h hkk.symm)
      simp only [List.filter_cons, hb, if_true, List.lookup_cons, hk]
      exact ih

theorem lookup_filter_ne_other (k k' : α) (h : k' ≠ k) :
    ∀ l : List (α × β),
      List.lookup k' (l.filter (fun e => e.1 != k)) = List.lookup k' l := by
  intro l
  induction l with
  | nil => rfl
  | cons e t ih =>
    obtain ⟨e1, e2⟩ := e
    by_cases he : e1 = k
    · have hb : ((e1, e2).1 != k) = false := by simp [he]
      have hk : (k' == e1) = false := beq_eq_false_iff_ne.2 (fun hkk => h (hkk.trans he))
      simp only [List.filter_cons, hb, Bool.false_eq_true, if_false, ih,
        List.lookup_cons, hk]
    · have hb : ((e1, e2).1 != k) = true := by simp [he]
      simp only [List.filter_cons, hb, if_true, List.lookup_cons, ih]

theorem lookup_map_update_self (k : α) (g : α × β → β) :
    ∀ l : List (α × β),
      List.lookup k (l.map (fun e => if e.1 = k then (e.1, g e) else e)) =
        (List.lookup k l).map (fun v => g (k, v)) := by
  intro l
  induction l with
  | nil => rfl
  | cons e t ih =>
    obtain ⟨e1, e2⟩ := e
    by_cases h : e1 = k
    · subst h
      simp only [List.map_cons, if_pos rfl, List.lookup_cons, beq_self_eq_true]
      simp [ih]
    · have hk : (k == e1) = false := beq_eq_false_iff_ne.2 (fun hkk => h hkk.symm)
      have hif : (if ((e1, e2) : α × β).1 = k then ((e1, e2).1, g (e1, e2)) else (e1, e2)) =
          (e1, e2) := by simp [h]
      simp only [List.map_cons, hif, List.lookup_cons, hk, ih]

theorem lookup_map_update_other (k k' : α) (g : α × β → β) (h : k' ≠ k) :
    ∀ l : List (α × β),
      List.lookup k' (l.map (fun e => if e.1 = k then (e.1, g e) else e)) =
        List.lookup k' l := by
  intro l
  induction l with
  | nil => rfl
  | cons e t ih =>
    obtain ⟨e1, e2⟩ := e
    by_cases he : e1 = k
    · subst he
      have hk : (k' == e1) = false := beq_eq_false_iff_ne.2 h
      simp [List.lookup_cons, hk, ih]
    · have hif : (if ((e1, e2) : α × β).1 = k then ((e1, e2).1, g (e1, e2)) else (e1, e2)) =
          (e1, e2) := by simp [he]
      simp only [List.map_cons, hif, List.lookup_cons, ih]

theorem lookup_append_new (k : α) (v : β) :
    ∀ l : List (α × β), (∀ e ∈ l, e.1 ≠ k) →
      List.lookup k (l ++ [(k, v)]) = some v := by
  intro l
  induction l with
  | nil => intro _; simp
  | cons e t ih =>
    intro h
    obtain ⟨e1, e2⟩ := e
    have he : e1 ≠ k := h (e1, e2) (List.mem_cons_self _ _)
    have hk : (k == e1) = false := beq_eq_false_iff_ne.2 (fun hkk => he hkk.symm)
    simp only [List.cons_append, List.lookup_cons, hk]
    exact ih (fun e' he' => h e' (List.mem_cons_of_mem _ he'))

theorem lookup_append_old (k k' : α) (v : β) (h : k' ≠ k) :
    ∀ l : List (α × β),
      List.lookup k' (l ++ [(k, v)]) = List.lookup k' l := by
  intro l
  induction l with
  | nil =>
    have hk : (k' == k) = false := beq_eq_false_iff_ne.2 h
    simp [List.lookup_cons, hk]
  | cons e t ih =>
    obtain ⟨e1, e2⟩ := e
    by_cases he : k' = e1
    · subst he
      simp [List.cons_append, List.lookup_cons]
    · have hk : (k' == e1) = false := beq_eq_false_iff_ne.2 he
      simp only [List.cons_append, List.lookup_cons, hk, ih]

theorem length_filter_ne_of_lookup (k : α) (v : β) :
    ∀ l : List (α × β), (l.map (fun e => e.1)).Nodup →
      List.lookup k l = some v →
      (l.filter (fun e => e.1 != k)).length + 1 = l.length := by
  intro l
  induction l with
  | nil => intro _ h; simp at h
  | cons e t ih =>
    intro hn hl
    obtain ⟨e1, e2⟩ := e
    by_cases he : e1 = k
    · have hb : ((e1, e2).1 != k) = false := by simp [he]
      have hn2 : (∀ x : β, (e1, x) ∉ t) ∧ (t.map (fun e => e.1)).Nodup := by
        simpa using hn
      have hkeys : ∀ e' ∈ t, (e'.1 != k) = true := by
        intro e' he'
        have hne : e'.1 ≠ e1 := by
          intro hh
          exact hn2.1 e'.2 (by rw [← hh, Prod.mk.eta]; exact he')
        simp [he ▸ hne]
      have hfix : t.filter (fun e => e.1 != k) = t :=
        List.filter_eq_self.2 hkeys
      simp [List.filter_cons, hb, hfix]
    · have hb : ((e1, e2).1 != k) = true := by simp [he]
      have hn2 : (∀ x : β, (e1, x) ∉ t) ∧ (t.map (fun e => e.1)).Nodup := by
        simpa using hn
      have hk : (k == e1) = false := beq_eq_false_iff_ne.2 (fun hkk => he hkk.symm)
      simp only [List.lookup_cons, hk] at hl
      simp only [List.filter_cons, hb, if_true, List.length_cons]
      rw [ih hn2.2 hl]

end AssocToolkit

theorem lookup_pocketInsert_self (pk : Pockets) (k : String) (i : Nat) :
    List.lookup k (pocketInsert pk k i) =
      some (((List.lookup k pk).getD []) ++ [i]) := by
  unfold pocketInsert
  by_cases h : pk.any (fun e => e.1 = k)
  · rw [if_pos h]
    rw [lookup_map_update_self k (fun e => e.2 ++ [i]) pk]
    rcases List.any_eq_true.1 h with ⟨e, he, hek⟩
    have hek' : e.1 = k := by simpa using hek
    have hsome : (List.lookup k pk).isSome := by
      rw [List.lookup_isSome_iff]
      exact ⟨e, he, by simp [hek']⟩
    rcases Option.isSome_iff_exists.1 hsome with ⟨v, hv⟩
    simp [hv]
  · rw [if_neg h]
    have hnone : ∀ e ∈ pk, e.1 ≠ k := by
      intro e he hek
      exact h (List.any_eq_true.2 ⟨e, he, by simp [hek]⟩)
    rw [lookup_append_new k [i] pk hnone]
    have : List.lookup k pk = none := by
      rw [List.lookup_eq_none_iff]
      intro p hp
      simpa using fun hkk => hnone p hp hkk.symm
    simp [this]

theorem lookup_pocketInsert_other (pk : Pockets) (k k' : String) (i : Nat) (h : k' ≠ k) :
    List.lookup k' (pocketInsert pk k i) = List.lookup k' pk := by
  unfold pocketInsert
  by_cases hc : pk.any (fun e => e.1 = k)
  · rw [if_pos hc]
    exact lookup_map_update_other k k' (fun e => e.2 ++ [i]) h pk
  · rw [if_neg hc]
    exact lookup_append_old k k' [i] h pk

theorem lookup_foldl_pockets (k : String) :
    ∀ (L : List (Nat × Pair)) (pk : Pockets),
      List.lookup k (L.foldl (fun pk e => pocketInsert pk (keyOf e) e.1) pk) =
        (match List.lookup k pk with
         | some old => some (old ++ idxsOf L k)
         | none => if idxsOf L k = [] then none else some (idxsOf L k)) := by
  intro L
  induction L with
  | nil =>
    intro pk
    cases h : List.lookup k pk <;> simp [idxsOf, h]
  | cons e t ih =>
    intro pk
    simp only [List.foldl_cons]
    rw [ih (pocketInsert pk (keyOf e) e.1)]
    by_cases hk : keyOf e = k
    · rw [hk, lookup_pocketInsert_self pk k e.1]
      have hidx : idxsOf (e :: t) k = e.1 :: idxsOf t k := by
        simp [idxsOf, List.filter_cons, hk]
      cases h : List.lookup k pk <;> simp [hidx, h]
    · rw [lookup_pocketInsert_other pk (keyOf e) k e.1 (fun hh => hk hh.symm)]
      have hidx : idxsOf (e :: t) k = idxsOf t k := by
        simp [idxsOf, List.filter_cons, hk]
      rw [hidx]

theorem lookup_build_pockets (pairs : List Pair) (k : String) :
    List.lookup k (build_lookup pairs).2 =
      (if idxsOf pairs.enum k = [] then none else some (idxsOf pairs.enum k)) := by
  have h := lookup_foldl_pockets k pairs.enum []
  simpa [build_lookup] using h

theorem lookup_enumFrom_of_mem :
    ∀ (l : List Pair) (j : Nat) (e : Nat × Pair), e ∈ List.enumFrom j l →
      List.lookup e.1 (List.enumFrom j l) = some e.2 := by
  intro l
  induction l with
  | nil => intro j e h; simp at h
  | cons p t ih =>
    intro j e h
    rcases List.mem_cons.1 (by simpa [List.enumFrom_cons] using h) with h1 | h1
    · subst h1
      simp
    · have hb := mem_enumFrom_bounds t (j + 1) h1
      have hne : (e.1 == j) = false := beq_eq_false_iff_ne.2 (by omega)
      simp only [List.enumFrom_cons, List.lookup_cons, hne]
      exact ih (j + 1) e h1

/-- The synonym loop never fires when every variant's pocket is absent or
empty: the pool is returned unchanged with the NOT_FOUND sentinel. -/
theorem popGo_all_empty :
    ∀ (sl : List String) (index : Index) (pockets : Pockets),
      (∀ s ∈ sl, List.lookup s pockets = none ∨ List.lookup s pockets = some []) →
      popGo index pockets sl = (none, index, pockets) := by
  intro sl
  induction sl with
  | nil => intro _ _ _; rfl
  | cons s ss ih =>
    intro index pockets h
    have hrec := ih index pockets (fun s' hs' => h s' (List.mem_cons_of_mem _ hs'))
    rcases h s (List.mem_cons_self _ _) with h1 | h1 <;>
      simp only [popGo, h1] <;> exact hrec

theorem popGo_hit :
    ∀ (sl : List String) (index : Index) (pockets : Pockets) (k0 : String)
      (i0 : Nat) (l0 : List Nat),
      k0 ∈ sl →
      (∀ s ∈ sl, s ≠ k0 → List.lookup s pockets = none) →
      List.lookup k0 pockets = some (i0 :: l0) →
      popGo index pockets sl =
        (some (popIndex index i0).1, (popIndex index i0).2,
         if l0 = [] then pockets.filter (fun e => e.1 != k0)
         else pockets.map (fun e => if e.1 = k0 then (e.1, l0) else e)) := by
  intro sl
  induction sl with
  | nil => intro _ _ _ _ _ h; simp at h
  | cons s ss ih =>
    intro index pockets k0 i0 l0 hmem hothers hk0
    by_cases hs : s = k0
    · subst hs
      simp [popGo, hk0]
    · have hnone : List.lookup s pockets = none := hothers s (List.mem_cons_self _ _) hs
      simp only [popGo, hnone]
      have hmem' : k0 ∈ ss := by
        rcases List.mem_cons.1 hmem with h1 | h1
        · exact absurd h1.symm hs
        · exact h1
      exact ih index pockets k0 i0 l0 hmem'
        (fun s' hs' => hothers s' (List.mem_cons_of_mem _ hs')) hk0

/-- C10: a resolution miss is atomic — when no pair in the pool matches any
variant of the wanted label, `pop_first_matching` returns the NOT_FOUND
sentinel and both the pair index and the per-key pockets are returned
completely unchanged. -/
theorem resolve_miss_preserves_pool (pairs : List Pair) (wanted : String)
    (h : ∀ p ∈ pairs, key_matches (pyStr p.1) wanted = false) :
    pop_first_matching (build_lookup pairs).1 (build_lookup pairs).2 wanted =
      (none, (build_lookup pairs).1, (build_lookup pairs).2) := by
  unfold pop_first_matching
  apply popGo_all_empty
  intro s hs
  left
  rw [lookup_build_pockets, if_pos]
  rw [idxsOf, List.map_eq_nil, List.filter_eq_nil_iff]
  intro e he
  have hp : e.2 ∈ pairs := (mem_enumFrom_bounds pairs 0 (by simpa [List.enum] using he)).2.2
  have hkm := h e.2 hp
  intro hkey
  have hkey' : keyOf e = s := of_decide_eq_true hkey
  have hmem : canonicalKeyStr (pyStr e.2.1) ∈ synsOf wanted := by
    rw [show canonicalKeyStr (pyStr e.2.1) = keyOf e from rfl, hkey']
    exact hs
  rw [key_matches] at hkm
  have hcon : (synsOf wanted).contains (canonicalKeyStr (pyStr e.2.1)) = true := by
    simpa [List.contains, List.elem_eq_mem] using hmem
  rw [hkm] at hcon
  simp at hcon

/-- Witness for `resolve_miss_preserves_pool`: a pool holding only a
`Cultura:` pair misses a `Data` resolution and stays intact. -/
theorem resolve_miss_preserves_pool_witness :
    key_matches (pyStr (PyVal.vStr "Cultura:")) "Data" = false ∧
    pop_first_matching (build_lookup [(.vStr "Cultura:", .vStr "Soja")]).1
        (build_lookup [(.vStr "Cultura:", .vStr "Soja")]).2 "Data" =
      (none, (build_lookup [(.vStr "Cultura:", .vStr "Soja")]).1,
       (build_lookup [(.vStr "Cultura:", .vStr "Soja")]).2) :=
  ⟨by decide,
   resolve_miss_preserves_pool [(.vStr "Cultura:", .vStr "Soja")] "Data" (by decide)⟩

theorem enumFrom_filter_map_snd (P : Pair → Bool) :
    ∀ (l : List Pair) (j : Nat),
      ((List.enumFrom j l).filter (fun e => P e.2)).map (fun e => e.2) = l.filter P := by
  intro l
  induction l with
  | nil => intro j; rfl
  | cons p t ih =>
    intro j
    by_cases hp : P p
    · simp [List.enumFrom_cons, List.filter_cons, hp, ih (j + 1)]
    · simp [List.enumFrom_cons, List.filter_cons, hp, ih (j + 1)]

/-- C3: synonym resolution consumes at most one pool entry per call and is
total (it returns the NOT_FOUND sentinel rather than raising).  Against a
pool holding exactly one pair matching the wanted label's synonym set,
the first call returns that pair (removing it), and a second call for the
same wanted label returns NOT_FOUND. -/
theorem resolve_twice (pairs : List Pair) (wanted : String)
    (h : (pairs.filter (fun p => key_matches (pyStr p.1) wanted)).length = 1) :
    ∃ p : Pair,
      pairs.filter (fun p' => key_matches (pyStr p'.1) wanted) = [p] ∧
      (pop_first_matching (build_lookup pairs).1 (build_lookup pairs).2 wanted).1 = some p ∧
      (pop_first_matching
        (pop_first_matching (build_lookup pairs).1 (build_lookup pairs).2 wanted).2.1
        (pop_first_matching (build_lookup pairs).1 (build_lookup pairs).2 wanted).2.2
        wanted).1 = none := by
  have hmapM := enumFrom_filter_map_snd (fun p => key_matches (pyStr p.1) wanted) pairs 0
  have hMlen :
      ((List.enumFrom 0 pairs).filter
        (fun e => key_matches (pyStr e.2.1) wanted)).length = 1 := by
    have := congrArg List.length hmapM
    simpa [h] using this
  rcases List.length_eq_one.1 hMlen with ⟨e0, hM⟩
  have he0 : e0 ∈ (List.enumFrom 0 pairs).filter
      (fun e => key_matches (pyStr e.2.1) wanted) := by
    rw [hM]; exact List.mem_singleton_self _
  have he0' := List.mem_filter.1 he0
  have hk0syn : keyOf e0 ∈ synsOf wanted := by
    have := he0'.2
    rw [key_matches] at this
    simpa [keyOf, List.contains, List.elem_eq_mem] using this
  have hfilter : pairs.filter (fun p' => key_matches (pyStr p'.1) wanted) = [e0.2] := by
    rw [← hmapM, hM]
    rfl
  -- pockets of syn variants other than the key of the unique match are absent
  have hothers : ∀ s ∈ synsOf wanted, s ≠ keyOf e0 →
      List.lookup s (build_lookup pairs).2 = none := by
    intro s hs hne
    rw [lookup_build_pockets, if_pos]
    rw [idxsOf, List.map_eq_nil, List.filter_eq_nil_iff]
    intro e he hkey
    have hkey' : keyOf e = s := of_decide_eq_true hkey
    have hPe : key_matches (pyStr e.2.1) wanted = true := by
      rw [key_matches]
      have : canonicalKeyStr (pyStr e.2.1) ∈ synsOf wanted := by
        rw [show canonicalKeyStr (pyStr e.2.1) = keyOf e from rfl, hkey']
        exact hs
      simpa [List.contains, List.elem_eq_mem] using this
    have heM : e ∈ (List.enumFrom 0 pairs).filter
        (fun e => key_matches (pyStr e.2.1) wanted) :=
      List.mem_filter.2 ⟨by simpa [List.enum] using he, hPe⟩
    rw [hM, List.mem_singleton] at heM
    exact hne (heM ▸ hkey').symm
  -- the pocket of the unique match's key holds exactly its position
  have hpock : List.lookup (keyOf e0) (build_lookup pairs).2 = some [e0.1] := by
    rw [lookup_build_pockets]
    have hQP : ∀ e ∈ List.enumFrom 0 pairs,
        (decide (keyOf e = keyOf e0)) =
          (decide (keyOf e = keyOf e0) && key_matches (pyStr e.2.1) wanted) := by
      intro e _
      by_cases hq : keyOf e = keyOf e0
      · have hPe : key_matches (pyStr e.2.1) wanted = true := by
          rw [key_matches]
          have : canonicalKeyStr (pyStr e.2.1) ∈ synsOf wanted := by
            rw [show canonicalKeyStr (pyStr e.2.1) = keyOf e from rfl, hq]
            exact hk0syn
          simpa [List.contains, List.elem_eq_mem] using this
        simp [hq, hPe]
      · simp [hq]
    have hff :
        (List.enumFrom 0 pairs).filter (fun e => decide (keyOf e = keyOf e0)) = [e0] := by
      rw [List.filter_congr hQP, ← List.filter_filter, hM, List.filter_cons]
      simp
    rw [idxsOf]
    have : (List.enumFrom 0 pairs).filter (fun e => keyOf e = keyOf e0) = [e0] := hff
    simp [List.enum] at this
    simp [List.enum, this]
  -- the first call pops the unique matching pair
  have hidx : List.lookup e0.1 (build_lookup pairs).1 = some e0.2 := by
    have := lookup_enumFrom_of_mem pairs 0 e0 (by simpa [List.enum] using he0'.1)
    simpa [build_lookup, List.enum] using this
  have hpop1 :
      pop_first_matching (build_lookup pairs).1 (build_lookup pairs).2 wanted =
        (some (popIndex (build_lookup pairs).1 e0.1).1,
         (popIndex (build_lookup pairs).1 e0.1).2,
         (build_lookup pairs).2.filter (fun e => e.1 != keyOf e0)) := by
    rw [pop_first_matching]
    have := popGo_hit (synsOf wanted) (build_lookup pairs).1 (build_lookup pairs).2
      (keyOf e0) e0.1 [] hk0syn hothers hpock
    simpa using this
  refine ⟨e0.2, hfilter, ?_, ?_⟩
  · rw [hpop1]
    simp [popIndex, hidx]
  · rw [hpop1]
    simp only
    rw [pop_first_matching]
    have hempty : ∀ s ∈ synsOf wanted,
        List.lookup s ((build_lookup pairs).2.filter (fun e => e.1 != keyOf e0)) = none ∨
        List.lookup s ((build_lookup pairs).2.filter (fun e => e.1 != keyOf e0)) =
          some [] := by
      intro s hs
      left
      by_cases hse : s = keyOf e0
      · rw [hse]
        exact lookup_filter_ne_self (keyOf e0) (build_lookup pairs).2
      · rw [lookup_filter_ne_other (keyOf e0) s hse (build_lookup pairs).2]
        exact hothers s hs hse
    rw [popGo_all_empty (synsOf wanted) _ _ hempty]

/-- Witness for `resolve_twice`: a pool with exactly the pair
`("Data:", "2024")` matches the wanted label `"Data"` once; the second
resolution returns NOT_FOUND. -/
theorem resolve_twice_witness :
    ([((PyVal.vStr "Data:" : PyVal), (PyVal.vStr "2024" : PyVal))].filter
      (fun p => key_matches (pyStr p.1) "Data")).length = 1 ∧
    (pop_first_matching
      (pop_first_matching (build_lookup [(.vStr "Data:", .vStr "2024")]).1
        (build_lookup [(.vStr "Data:", .vStr "2024")]).2 "Data").2.1
      (pop_first_matching (build_lookup [(.vStr "Data:", .vStr "2024")]).1
        (build_lookup [(.vStr "Data:", .vStr "2024")]).2 "Data").2.2
      "Data").1 = none := by
  have h := resolve_twice [(.vStr "Data:", .vStr "2024")] "Data" (by decide)
  rcases h with ⟨p, _, _, h3⟩
  exact ⟨by decide, h3⟩

theorem collectWindow_spec :
    ∀ (l : List Pair) (j : Nat) (c : Collected) (u : List Nat),
      ∃ add : List Nat,
        (collectWindow j l c u).used = u ++ add ∧
        add.Nodup ∧
        (∀ x ∈ add, j ≤ x ∧ x < (collectWindow j l c u).jEnd) ∧
        j ≤ (collectWindow j l c u).jEnd ∧
        (collectWindow j l c u).jEnd + (collectWindow j l c u).rem.length = j + l.length := by
  intro l
  induction l with
  | nil =>
    intro j c u
    exact ⟨[], by simp [collectWindow], List.nodup_nil, by simp, Nat.le_refl _,
      by simp [collectWindow]⟩
  | cons p tl ih =>
    intro j c u
    obtain ⟨q, a⟩ := p
    simp only [collectWindow]
    split
    · exact ⟨[], by simp, List.nodup_nil, by simp, Nat.le_refl _, by simp⟩
    · split
      · obtain ⟨add, h1, h2, h3, h4, h5⟩ :=
          ih (j + 1) { f0 := c.f0, f1 := a, f2 := c.f2, f3 := c.f3 } (u ++ [j])
        refine ⟨j :: add, ?_, ?_, ?_, by omega, by simp at h5 ⊢; omega⟩
        · rw [h1]; simp
        · exact List.nodup_cons.2 ⟨fun hj => by have := (h3 j hj).1; omega, h2⟩
        · intro x hx
          rcases List.mem_cons.1 hx with rfl | hx
          · exact ⟨Nat.le_refl _, by omega⟩
          · have := h3 x hx; omega
      · split
        · obtain ⟨add, h1, h2, h3, h4, h5⟩ :=
            ih (j + 1) { f0 := c.f0, f1 := c.f1, f2 := a, f3 := c.f3 } (u ++ [j])
          refine ⟨j :: add, ?_, ?_, ?_, by omega, by simp at h5 ⊢; omega⟩
          · rw [h1]; simp
          · exact List.nodup_cons.2 ⟨fun hj => by have := (h3 j hj).1; omega, h2⟩
          · intro x hx
            rcases List.mem_cons.1 hx with rfl | hx
            · exact ⟨Nat.le_refl _, by omega⟩
            · have := h3 x hx; omega
        · split
          · obtain ⟨add, h1, h2, h3, h4, h5⟩ :=
              ih (j + 1) { f0 := c.f0, f1 := c.f1, f2 := c.f2, f3 := a } (u ++ [j])
            refine ⟨j :: add, ?_, ?_, ?_, by omega, by simp at h5 ⊢; omega⟩
            · rw [h1]; simp
            · exact List.nodup_cons.2 ⟨fun hj => by have := (h3 j hj).1; omega, h2⟩
            · intro x hx
              rcases List.mem_cons.1 hx with rfl | hx
              · exact ⟨Nat.le_refl _, by omega⟩
              · have := h3 x hx; omega
          · obtain ⟨add, h1, h2, h3, h4, h5⟩ := ih (j + 1) c u
            refine ⟨add, h1, h2, ?_, by omega, by simp at h5 ⊢; omega⟩
            intro x hx
            have := h3 x hx; omega

theorem scanGo_used (maxp : Nat) :
    ∀ (fuel : Nat) (susp : List Pair) (i : Nat) (prods : List ProductGroup)
      (used : List Nat),
      used.Nodup → (∀ u ∈ used, u < i) →
      ((scanGo maxp fuel i susp prods used).2.Nodup ∧
       ∀ u ∈ (scanGo maxp fuel i susp prods used).2, u < i + susp.length) := by
  intro fuel
  induction fuel with
  | zero =>
    intro susp i prods used hn hb
    cases susp with
    | nil => exact ⟨hn, fun u hu => by have := hb u hu; omega⟩
    | cons p tl =>
      obtain ⟨q, a⟩ := p
      exact ⟨hn, fun u hu => by have := hb u hu; simp only [scanGo] at hu ⊢; omega⟩
  | succ f ih =>
    intro susp i prods used hn hb
    cases susp with
    | nil => exact ⟨hn, fun u hu => by have := hb u hu; omega⟩
    | cons p tl =>
      obtain ⟨q, a⟩ := p
      simp only [scanGo]
      split
      · rename_i n heqn
        split
        · rename_i hlt
          obtain ⟨add, h1, h2, h3, h4, h5⟩ :=
            collectWindow_spec tl (i + 1)
              { f0 := a, f1 := .vNone, f2 := .vNone, f3 := .vNone } []
          rw [h1]
          simp only [List.nil_append]
          have hnodup' : (used ++ i :: add).Nodup := by
            refine List.Nodup.append hn (List.nodup_cons.2 ⟨?_, h2⟩) ?_
            · intro hi
              have := (h3 i hi).1; omega
            · intro x hx hx'
              have hxi := hb x hx
              rcases List.mem_cons.1 hx' with rfl | hx'
              · omega
              · have := (h3 x hx').1; omega
          have hbound' : ∀ u ∈ used ++ i :: add,
              u < (collectWindow (i + 1) tl
                { f0 := a, f1 := .vNone, f2 := .vNone, f3 := .vNone } []).jEnd := by
            intro u hu
            rcases List.mem_append.1 hu with hu | hu
            · have := hb u hu; omega
            · rcases List.mem_cons.1 hu with rfl | hu
              · omega
              · exact (h3 u hu).2
          have hrec := ih
            (collectWindow (i + 1) tl
              { f0 := a, f1 := .vNone, f2 := .vNone, f3 := .vNone } []).rem
            (collectWindow (i + 1) tl
              { f0 := a, f1 := .vNone, f2 := .vNone, f3 := .vNone } []).jEnd
            (if hasAnyAnswer (collectWindow (i + 1) tl
                { f0 := a, f1 := .vNone, f2 := .vNone, f3 := .vNone } []).coll then
              prods ++ [mkGroup n (collectWindow (i + 1) tl
                { f0 := a, f1 := .vNone, f2 := .vNone, f3 := .vNone } []).coll]
            else prods)
            (used ++ i :: add) hnodup' hbound'
          refine ⟨hrec.1, fun u hu => ?_⟩
          have h6 := hrec.2 u hu
          simp only [List.length_cons]
          omega
        · have := ih tl (i + 1) prods used hn (fun u hu => by have := hb u hu; omega)
          exact ⟨this.1, fun u hu => by have := this.2 u hu; simp only [List.length_cons]; omega⟩
      · have := ih tl (i + 1) prods used hn (fun u hu => by have := hb u hu; omega)
        exact ⟨this.1, fun u hu => by have := this.2 u hu; simp only [List.length_cons]; omega⟩

theorem length_filter_fst (P : Nat → Bool) :
    ∀ L : List (Nat × Pair),
      (L.filter (fun e => P e.1)).length = ((L.map (fun e => e.1)).filter P).length := by
  intro L
  induction L with
  | nil => rfl
  | cons e t ih =>
    by_cases h : P e.1
    · simp [List.filter_cons, h, ih]
    · simp [List.filter_cons, h, ih]

/-- The residual filter drops exactly one pair per used position. -/
theorem length_rest_add_used (l : List Pair) (used : List Nat)
    (hn : used.Nodup) (hb : ∀ u ∈ used, u < l.length) :
    ((l.enum.filter (fun e => !(used.contains e.1))).map (fun e => e.2)).length +
      used.length = l.length := by
  rw [List.length_map]
  have hsplit := List.length_eq_length_filter_add
    (l := l.enum) (fun e => !(used.contains e.1))
  have hnotnot : (l.enum.filter (fun e => !(!(used.contains e.1)))).length =
      (l.enum.filter (fun e => used.contains e.1)).length := by
    congr 1
    apply List.filter_congr
    intro e _
    simp
  have henumlen : l.enum.length = l.length := List.enumFrom_length
  have hkeys : (l.enum.map (fun e => e.1)) = List.range l.length := by
    show l.enum.map Prod.fst = _
    rw [List.enum, List.enumFrom_map_fst, ← List.range_eq_range']
  have hcount : (l.enum.filter (fun e => used.contains e.1)).length = used.length := by
    rw [length_filter_fst (fun i => used.contains i) l.enum, hkeys]
    have hperm : ((List.range l.length).filter (fun i => used.contains i)).Perm used := by
      apply (List.perm_ext_iff_of_nodup ?_ hn).2
      · intro a
        simp only [List.mem_filter, List.mem_range, List.contains, List.elem_eq_mem,
          decide_eq_true_eq]
        exact ⟨fun h => h.2, fun h => ⟨hb a h, h⟩⟩
      · exact (List.nodup_range _).filter _
    exact hperm.length_eq
  omega

/-- One resolution step preserves the pool invariant and consumes exactly
one index entry when (and only when) it reports a find. -/
theorem popGo_count :
    ∀ (sl : List String) (index : Index) (pockets : Pockets),
      PoolInv index pockets →
      PoolInv (popGo index pockets sl).2.1 (popGo index pockets sl).2.2 ∧
      (popGo index pockets sl).2.1.length +
        (if (popGo index pockets sl).1.isSome then 1 else 0) = index.length := by
  intro sl
  induction sl with
  | nil =>
    intro index pockets hinv
    exact ⟨hinv, by simp [popGo]⟩
  | cons s ss ih =>
    intro index pockets hinv
    rcases hlk : List.lookup s pockets with _ | ls
    · simp only [popGo, hlk]
      exact ih index pockets hinv
    · cases ls with
      | nil =>
        simp only [popGo, hlk]
        exact ih index pockets hinv
      | cons i0 l0 =>
        simp only [popGo, hlk]
        have hpock := hinv.2 s (i0 :: l0) hlk
        obtain ⟨p0, hp0idx, hp0key⟩ := hpock.2 i0 (List.mem_cons_self _ _)
        have hpop : popIndex index i0 = (p0, index.filter (fun e => e.1 != i0)) := by
          simp [popIndex, hp0idx]
        have hlen : (index.filter (fun e => e.1 != i0)).length + 1 = index.length :=
          length_filter_ne_of_lookup i0 p0 index hinv.1 hp0idx
        have hkeysN : ((index.filter (fun e => e.1 != i0)).map (fun e => e.1)).Nodup :=
          ((List.filter_sublist index).map (fun e => e.1)).nodup hinv.1
        have hidxpres : ∀ (i : Nat) (p : Pair), i ≠ i0 → List.lookup i index = some p →
            List.lookup i (index.filter (fun e => e.1 != i0)) = some p := by
          intro i p hne hip
          rw [lookup_filter_ne_other i0 i hne index]
          exact hip
        have hkeyne : ∀ (k : String) (i : Nat) (p : Pair),
            List.lookup i index = some p → canonicalKeyStr (pyStr p.1) = k → k ≠ s →
            i ≠ i0 := by
          intro k i p hip hkey hks hii
        -- if i = i0 then p = p0 so k = s
          rw [hii, hp0idx] at hip
          have hpp : p = p0 := by injection hip with h; exact h.symm
          exact hks (by rw [← hkey, hpp, hp0key])
        constructor
        · constructor
          · rw [hpop]
            exact hkeysN
          · intro k l hkl
            rw [hpop]
            by_cases hl0 : l0 = []
            · rw [if_pos hl0] at hkl
              by_cases hks : k = s
              · rw [hks, lookup_filter_ne_self s pockets] at hkl
                exact (nomatch hkl)
              · rw [lookup_filter_ne_other s k hks pockets] at hkl
                have hold := hinv.2 k l hkl
                refine ⟨hold.1, fun i hi => ?_⟩
                obtain ⟨p, hip, hkey⟩ := hold.2 i hi
                exact ⟨p, hidxpres i p (hkeyne k i p hip hkey hks) hip, hkey⟩
            · rw [if_neg hl0] at hkl
              by_cases hks : k = s
              · subst hks
                rw [lookup_map_update_self k (fun _ => l0) pockets, hlk] at hkl
                have hleq : l = l0 := by
                  rw [show Option.map (fun v => l0) (some (i0 :: l0)) = some l0 from rfl] at hkl
                  injection hkl with h
                  exact h.symm
                subst hleq
                refine ⟨(List.nodup_cons.1 hpock.1).2, fun i hi => ?_⟩
                obtain ⟨p, hip, hkey⟩ := hpock.2 i (List.mem_cons_of_mem _ hi)
                have hine : i ≠ i0 := fun hii =>
                  (List.nodup_cons.1 hpock.1).1 (hii ▸ hi)
                exact ⟨p, hidxpres i p hine hip, hkey⟩
              · rw [lookup_map_update_other s k (fun _ => l0) hks pockets] at hkl
                have hold := hinv.2 k l hkl
                refine ⟨hold.1, fun i hi => ?_⟩
                obtain ⟨p, hip, hkey⟩ := hold.2 i hi
                exact ⟨p, hidxpres i p (hkeyne k i p hip hkey hks) hip, hkey⟩
        · rw [hpop]
          simpa using hlen

theorem resolveGroups_count :
    ∀ (ws : List String) (index : Index) (pockets : Pockets),
      PoolInv index pockets →
      (resolveGroups index pockets ws).1.length + (resolveGroups index pockets ws).2.2 =
        index.length := by
  intro ws
  induction ws with
  | nil =>
    intro index pockets _
    simp [resolveGroups]
  | cons w ws ih =>
    intro index pockets hinv
    have hc := popGo_count (synsOf w) index pockets hinv
    have hrec := ih (popGo index pockets (synsOf w)).2.1
      (popGo index pockets (synsOf w)).2.2 hc.1
    have hc2 := hc.2
    simp only [resolveGroups, pop_first_matching]
    generalize hgen : (if (popGo index pockets (synsOf w)).1.isSome then 1 else 0) = t
      at hc2 ⊢
    omega

/-- `build_lookup` establishes the pool invariant. -/
theorem poolInv_build (pairs : List Pair) :
    PoolInv (build_lookup pairs).1 (build_lookup pairs).2 := by
  constructor
  · have hkeys : ((build_lookup pairs).1.map (fun e => e.1)) = List.range pairs.length := by
      show pairs.enum.map Prod.fst = _
      rw [List.enum, List.enumFrom_map_fst, ← List.range_eq_range']
    rw [hkeys]
    exact List.nodup_range _
  · intro k l hkl
    rw [lookup_build_pockets] at hkl
    by_cases hnil : idxsOf pairs.enum k = []
    · rw [if_pos hnil] at hkl
      exact (nomatch hkl)
    · rw [if_neg hnil] at hkl
      have hleq : l = idxsOf pairs.enum k := by injection hkl with h; exact h.symm
      subst hleq
      constructor
      · rw [idxsOf]
        have hsub : ((pairs.enum.filter (fun e => keyOf e = k)).map (fun e => e.1)).Sublist
            (pairs.enum.map (fun e => e.1)) :=
          (List.filter_sublist pairs.enum).map (fun e => e.1)
        have hkeys : (pairs.enum.map (fun e => e.1)) = List.range pairs.length := by
          show pairs.enum.map Prod.fst = _
          rw [List.enum, List.enumFrom_map_fst, ← List.range_eq_range']
        exact hsub.nodup (hkeys ▸ List.nodup_range _)
      · intro i hi
        rw [idxsOf] at hi
        rcases List.mem_map.1 hi with ⟨e, hef, hei⟩
        have hef' := List.mem_filter.1 hef
        have hkey : keyOf e = k := of_decide_eq_true hef'.2
        refine ⟨e.2, ?_, hkey⟩
        have := lookup_enumFrom_of_mem pairs 0 e (by simpa [List.enum] using hef'.1)
        rw [← hei]
        simpa [build_lookup, List.enum] using this

/-- C1: residual-pool conservation.  The positions the product extractor
consumes are pairwise distinct, and for any record and any sequence of
named-group labels, the number of pairs consumed by named-group
resolution plus the number of product-consumed positions plus the final
residual count equals the number of original pairs — no pair is counted
twice. -/
theorem residual_pool_conservation (pairs : List Pair) (maxp : Nat)
    (wanteds : List String) :
    (scanLoop maxp 0 pairs [] []).2.Nodup ∧
    (resolveGroups (build_lookup (extract_products_and_rest pairs maxp).2).1
        (build_lookup (extract_products_and_rest pairs maxp).2).2 wanteds).2.2 +
      (scanLoop maxp 0 pairs [] []).2.length +
      (resolveGroups (build_lookup (extract_products_and_rest pairs maxp).2).1
        (build_lookup (extract_products_and_rest pairs maxp).2).2 wanteds).1.length =
      pairs.length := by
  have hused := scanGo_used maxp pairs.length pairs 0 [] [] List.nodup_nil (by simp)
  have husedN : (scanLoop maxp 0 pairs [] []).2.Nodup := hused.1
  have husedB : ∀ u ∈ (scanLoop maxp 0 pairs [] []).2, u < pairs.length := by
    intro u hu
    have := hused.2 u (by simpa [scanLoop] using hu)
    omega
  have hrest := length_rest_add_used pairs (scanLoop maxp 0 pairs [] []).2 husedN husedB
  have hresolve := resolveGroups_count wanteds
    (build_lookup (extract_products_and_rest pairs maxp).2).1
    (build_lookup (extract_products_and_rest pairs maxp).2).2
    (poolInv_build (extract_products_and_rest pairs maxp).2)
  have hindexlen : (build_lookup (extract_products_and_rest pairs maxp).2).1.length =
      (extract_products_and_rest pairs maxp).2.length := by
    show (extract_products_and_rest pairs maxp).2.enum.length = _
    exact List.enumFrom_length
  have hrestdef : (extract_products_and_rest pairs maxp).2 =
      (pairs.enum.filter
        (fun e => !((scanLoop maxp 0 pairs [] []).2.contains e.1))).map (fun e => e.2) := rfl
  refine ⟨husedN, ?_⟩
  rw [← hrestdef] at hrest
  omega

/-! ### Canonicalization: conditional idempotence (amended C4) -/

theorem lowerTable_closed :
    ∀ e ∈ lowerTable, lowerTable.find? (fun x => x.1 = e.2) = none := by decide

theorem pyToLower_idem (c : Char) : pyToLower (pyToLower c) = pyToLower c := by
  rcases hf : lowerTable.find? (fun e => e.1 = c) with _ | e
  · simp [pyToLower, hf]
  · have he := List.mem_of_find?_eq_some hf
    have hclosed := lowerTable_closed e he
    simp [pyToLower, hf, hclosed]

theorem nfdTable_facts :
    ∀ e ∈ nfdTable, ∀ b ∈ e.2,
      lowerTable.find? (fun x => x.1 = b) = none ∧ b ≠ '?' ∧
      (isMn b = true ∨ nfdTable.find? (fun x => x.1 = b) = none) := by decide

theorem mem_replQ {c : Char} {l : List Char} (h : c ∈ replQ l) : c = ':' ∨ c ∈ l := by
  rcases List.mem_map.1 h with ⟨a, ha, rfl⟩
  by_cases hq : a = '?'
  · exact Or.inl (by simp [hq])
  · exact Or.inr (by simpa [hq] using ha)

theorem replQ_no_q {l : List Char} : ∀ c ∈ replQ l, c ≠ '?' := by
  intro c h
  rcases List.mem_map.1 h with ⟨a, _, rfl⟩
  by_cases hq : a = '?' <;> simp [hq]

theorem mem_replSC : ∀ (l : List Char) (c : Char), c ∈ replSC l → c ∈ l := by
  intro l
  induction l using replSC.induct with
  | case1 => intro c h; simp [replSC] at h
  | case2 d => intro c h; simpa [replSC] using h
  | case3 a b rest hab ih =>
    intro c h
    rw [replSC, if_pos hab] at h
    rcases List.mem_cons.1 h with rfl | h
    · simp [hab.2]
    · simp [ih c h]
  | case4 a b rest hab ih =>
    intro c h
    rw [replSC, if_neg hab] at h
    rcases List.mem_cons.1 h with rfl | h
    · exact List.mem_cons_self _ _
    · exact List.mem_cons_of_mem _ (ih c h)

theorem mem_dropTrailingColon {c : Char} {l : List Char}
    (h : c ∈ dropTrailingColon l) : c ∈ l := by
  unfold dropTrailingColon at h
  split at h
  · exact (List.dropLast_sublist l).subset h
  · exact h

theorem mem_collapse : ∀ (l : List Char) (c : Char),
    (c ∈ collapseWS l → c = ' ' ∨ c ∈ l) ∧
    (c ∈ collapseSkip l → c = ' ' ∨ c ∈ l) := by
  intro l
  induction l with
  | nil =>
    intro c
    constructor <;> intro h <;> simp [collapseWS, collapseSkip] at h
  | cons a rest ih =>
    intro c
    constructor
    · intro h
      by_cases hs : pyIsSpace a
      · simp only [collapseWS, if_pos hs] at h
        rcases List.mem_cons.1 h with rfl | h
        · exact Or.inl rfl
        · rcases (ih c).2 h with h | h
          · exact Or.inl h
          · exact Or.inr (List.mem_cons_of_mem _ h)
      · simp only [collapseWS, if_neg hs] at h
        rcases List.mem_cons.1 h with rfl | h
        · exact Or.inr (List.mem_cons_self _ _)
        · rcases (ih c).1 h with h | h
          · exact Or.inl h
          · exact Or.inr (List.mem_cons_of_mem _ h)
    · intro h
      by_cases hs : pyIsSpace a
      · simp only [collapseSkip, if_pos hs] at h
        rcases (ih c).2 h with h | h
        · exact Or.inl h
        · exact Or.inr (List.mem_cons_of_mem _ h)
      · simp only [collapseSkip, if_neg hs] at h
        rcases List.mem_cons.1 h with rfl | h
        · exact Or.inr (List.mem_cons_self _ _)
        · rcases (ih c).1 h with h | h
          · exact Or.inl h
          · exact Or.inr (List.mem_cons_of_mem _ h)

theorem mem_strip_accents {b : Char} {l : List Char} (h : b ∈ strip_accents l) :
    isMn b = false ∧ ∃ c ∈ l, b ∈ nfdChar c := by
  unfold strip_accents at h
  have h1 := List.mem_filter.1 h
  exact ⟨by simpa using h1.2, List.mem_flatMap.1 h1.1⟩

/-- Every character of a canonical key is lower-case-fixed, not a question
mark, NFD-trivial and not a combining mark. -/
theorem canonKeyList_chars (l : List Char) :
    ∀ c ∈ canonKeyList l,
      pyToLower c = c ∧ c ≠ '?' ∧ nfdChar c = [c] ∧ isMn c = false := by
  intro c hc
  unfold canonKeyList at hc
  rcases (mem_collapse _ c).1 hc with rfl | hc6
  · exact ⟨by decide, by decide, by decide, by decide⟩
  obtain ⟨hmn, c5, hc5, hb⟩ := mem_strip_accents hc6
  have hc4 : c5 ∈ replSC (replQ ((pyStrip l).map pyToLower)) := mem_dropTrailingColon hc5
  have hc3 : c5 ∈ replQ ((pyStrip l).map pyToLower) := mem_replSC _ _ hc4
  have hlow5 : pyToLower c5 = c5 := by
    rcases mem_replQ hc3 with rfl | h3
    · decide
    · rcases List.mem_map.1 h3 with ⟨a, _, rfl⟩
      exact pyToLower_idem a
  have hq5 : c5 ≠ '?' := replQ_no_q c5 hc3
  rcases hf : nfdTable.find? (fun e => e.1 = c5) with _ | e
  · have hb' : c = c5 := by
      rw [nfdChar, hf] at hb
      simpa using hb
    subst hb'
    exact ⟨hlow5, hq5, by simp [nfdChar, hf], hmn⟩
  · have he := List.mem_of_find?_eq_some hf
    have hb' : c ∈ e.2 := by
      rw [nfdChar, hf] at hb
      simpa using hb
    have hfacts := nfdTable_facts e he c hb'
    refine ⟨by simp [pyToLower, hfacts.1], hfacts.2.1, ?_, hmn⟩
    rcases hfacts.2.2 with hMn | hnone
    · rw [hMn] at hmn
      cases hmn
    · simp [nfdChar, hnone]

theorem dropWhile_eq_self_of_head {p : Char → Bool} :
    ∀ l : List Char, (∀ c, l.head? = some c → p c = false) → l.dropWhile p = l := by
  intro l h
  cases l with
  | nil => rfl
  | cons a t =>
    have := h a rfl
    simp [List.dropWhile_cons, this]

theorem pyStrip_eq_self (l : List Char)
    (hh : ∀ c, l.head? = some c → pyIsSpace c = false)
    (hl : ∀ c, l.getLast? = some c → pyIsSpace c = false) :
    pyStrip l = l := by
  unfold pyStrip
  rw [dropWhile_eq_self_of_head l hh,
    dropWhile_eq_self_of_head l.reverse
      (fun c hc => hl c (by rwa [List.head?_reverse] at hc))]
  exact List.reverse_reverse l

theorem map_eq_self {f : Char → Char} :
    ∀ l : List Char, (∀ c ∈ l, f c = c) → l.map f = l := by
  intro l h
  induction l with
  | nil => rfl
  | cons a t ih =>
    rw [List.map_cons, h a (List.mem_cons_self _ _),
      ih (fun c hc => h c (List.mem_cons_of_mem _ hc))]

theorem replQ_eq_self (l : List Char) (h : ∀ c ∈ l, c ≠ '?') : replQ l = l :=
  map_eq_self l (fun c hc => if_neg (h c hc))

theorem replSC_eq_self : ∀ l : List Char, noSpaceColonPair l = true → replSC l = l := by
  intro l
  induction l with
  | nil => intro _; rfl
  | cons a t ih =>
    intro h
    cases t with
    | nil => rfl
    | cons d rest =>
      rw [noSpaceColonPair] at h
      by_cases hcond : a = ' ' ∧ d = ':'
      · rw [if_pos hcond] at h
        cases h
      · rw [if_neg hcond] at h
        rw [replSC, if_neg hcond, ih h]

theorem dropTrailingColon_eq_self (l : List Char) (h : ¬ l.getLast? = some ':') :
    dropTrailingColon l = l := by
  unfold dropTrailingColon
  rw [if_neg h]

theorem strip_accents_eq_self :
    ∀ l : List Char, (∀ c ∈ l, nfdChar c = [c] ∧ isMn c = false) →
      strip_accents l = l := by
  intro l
  induction l with
  | nil => intro _; rfl
  | cons a t ih =>
    intro h
    have ha := h a (List.mem_cons_self _ _)
    show ((a :: t).flatMap nfdChar).filter (fun c => !isMn c) = a :: t
    rw [List.flatMap_cons, ha.1]
    have hrec := ih (fun c hc => h c (List.mem_cons_of_mem _ hc))
    rw [show ([a] ++ t.flatMap nfdChar).filter (fun c => !isMn c) =
        ([a].filter (fun c => !isMn c)) ++
          ((t.flatMap nfdChar).filter (fun c => !isMn c)) from List.filter_append _ _]
    rw [show [a].filter (fun c => !isMn c) = [a] by simp [ha.2]]
    rw [show (t.flatMap nfdChar).filter (fun c => !isMn c) = t from hrec]
    rfl

theorem collapse_idem :
    ∀ l : List Char,
      collapseWS (collapseWS l) = collapseWS l ∧
      collapseSkip (collapseSkip l) = collapseSkip l := by
  intro l
  have hsp : pyIsSpace ' ' = true := by decide
  induction l with
  | nil => constructor <;> rfl
  | cons a rest ih =>
    constructor
    · by_cases hs : pyIsSpace a
      · simp only [collapseWS, if_pos hs, hsp, if_true]
        rw [ih.2]
      · simp only [collapseWS, if_neg hs]
        rw [ih.1]
    · by_cases hs : pyIsSpace a
      · simp only [collapseSkip, if_pos hs]
        exact ih.2
      · simp only [collapseSkip, if_neg hs]
        rw [ih.1]

theorem canonKeyList_fixpoint (l : List Char)
    (h1 : noEdgeWS (canonKeyList l) = true)
    (h2 : noTrailingColon (canonKeyList l) = true)
    (h3 : noSpaceColonPair (canonKeyList l) = true) :
    canonKeyList (canonKeyList l) = canonKeyList l := by
  have hchars := canonKeyList_chars l
  have hedge := h1
  unfold noEdgeWS at hedge
  rw [Bool.and_eq_true] at hedge
  have hA : pyStrip (canonKeyList l) = canonKeyList l := by
    apply pyStrip_eq_self
    · intro c hc
      have := hedge.1
      rw [hc] at this
      simpa using this
    · intro c hc
      have := hedge.2
      rw [hc] at this
      simpa using this
  have hB : (canonKeyList l).map pyToLower = canonKeyList l :=
    map_eq_self _ (fun c hc => (hchars c hc).1)
  have hC : replQ (canonKeyList l) = canonKeyList l :=
    replQ_eq_self _ (fun c hc => (hchars c hc).2.1)
  have hD : replSC (canonKeyList l) = canonKeyList l := replSC_eq_self _ h3
  have hE : dropTrailingColon (canonKeyList l) = canonKeyList l :=
    dropTrailingColon_eq_self _ (of_decide_eq_true h2)
  have hF : strip_accents (canonKeyList l) = canonKeyList l :=
    strip_accents_eq_self _ (fun c hc => ⟨(hchars c hc).2.2.1, (hchars c hc).2.2.2⟩)
  have hG : collapseWS (canonKeyList l) = canonKeyList l := by
    show collapseWS (canonKeyList l) = canonKeyList l
    unfold canonKeyList
    exact (collapse_idem _).1
  show collapseWS (strip_accents (dropTrailingColon (replSC (replQ
    ((pyStrip (canonKeyList l)).map pyToLower))))) = canonKeyList l
  rw [hA, hB, hC, hD, hE, hF, hG]

/-- C4 amended: canonicalization is idempotent on every label whose
canonical key is "clean" — no whitespace at either end, no trailing
colon, and no space immediately followed by a colon.  (It is not
idempotent in general: see `canonical_key_not_idempotent` — a key such as
`":"`, produced from `"??"`, still shrinks under a second pass.) -/
theorem canonical_key_idempotent_on_clean (x : String)
    (h1 : noEdgeWS (canonical_key (.vStr x)).toList = true)
    (h2 : noTrailingColon (canonical_key (.vStr x)).toList = true)
    (h3 : noSpaceColonPair (canonical_key (.vStr x)).toList = true) :
    canonical_key (.vStr (canonical_key (.vStr x))) = canonical_key (.vStr x) := by
  have hx : (canonical_key (.vStr x)).toList = canonKeyList x.toList := rfl
  rw [hx] at h1 h2 h3
  show String.mk (canonKeyList (canonKeyList x.toList)) = String.mk (canonKeyList x.toList)
  rw [canonKeyList_fixpoint x.toList h1 h2 h3]

/-- Witness for `canonical_key_idempotent_on_clean`: `"Data?"` has the
clean canonical key `"data"`, which is a fixed point. -/
theorem canonical_key_idempotent_on_clean_witness :
    (noEdgeWS (canonical_key (.vStr "Data?")).toList = true ∧
     noTrailingColon (canonical_key (.vStr "Data?")).toList = true ∧
     noSpaceColonPair (canonical_key (.vStr "Data?")).toList = true) ∧
    canonical_key (.vStr (canonical_key (.vStr "Data?"))) = canonical_key (.vStr "Data?") :=
  ⟨⟨by decide, by decide, by decide⟩,
   canonical_key_idempotent_on_clean "Data?" (by decide) (by decide) (by decide)⟩

end App
